import Mathlib

/-!
Verification development for the RootAsRole-gensr privilege-discovery engine.

The definitions below are a shallow embedding of the Rust sources:
  * `src/policy.rs`   — the `Access` bit-set, the `Policy` aggregate and its
    merge operator (`impl BitOr for Policy`), and Rust structural equality
    (`#[derive(PartialEq)]`, with `HashMap` compared as a set of entries);
  * `src/main.rs`     — the fail-then-add convergence loop
    (`fail_then_add_loop`) and the identity derivation functions
    (`get_username_ansible`, `get_username_gensr`);
  * `src/capable.rs`  — the capability-set bookkeeping of the prober
    (`Capable::add_caps`);
  * `src/deploy.rs`   — the polkit policy worker
    (`PolkitPolicyWorker::{add_policy, check_policy, del_policy}`) and the
    enforcement/teardown entry points (`enforce_policy`, `remove_policy`,
    `useradd`, `userdel`, `set_acl`, `del_acl`).

Rust `HashMap`s are modelled as association lists (`AssocMap`) whose
operations mirror the `HashMap` API: `insert` overwrites the value of an
existing key, `extend rhs` inserts every entry of `rhs` (overwriting on
collision), and `==` compares the sets of entries (order-irrelevant), which
is captured by the boolean `mapEqb`.  The well-formedness predicate `WF`
(keys are pairwise distinct) is the type invariant every real `HashMap`
satisfies.  File-system and OS side effects are modelled by explicit state
passing; fallible operations return `Except`.
-/

set_option linter.unusedSectionVars false

namespace Spec2Proof

/-- Association-list model of a Rust `HashMap κ α`. -/
abbrev AssocMap (κ α : Type) := List (κ × α)

namespace AssocMap

variable {κ α : Type} [DecidableEq κ] [DecidableEq α]

/-- Model of `HashMap::get`: the value of the first entry with the given key. -/
def lookupA (k : κ) : AssocMap κ α → Option α
  | [] => none
  | kv :: rest => if kv.1 = k then some kv.2 else lookupA k rest

/-- Model of `HashMap::contains_key`. -/
def containsKeyA (k : κ) (m : AssocMap κ α) : Bool :=
  m.any (fun kv => decide (kv.1 = k))

/-- Model of `HashMap::keys`. -/
def keysA (m : AssocMap κ α) : List κ :=
  m.map Prod.fst

/-- Model of `HashMap::insert`: overwrite the entry of an existing key,
append a fresh entry otherwise. -/
def insertA (k : κ) (v : α) (m : AssocMap κ α) : AssocMap κ α :=
  if containsKeyA k m then m.map (fun kv => if kv.1 = k then (k, v) else kv)
  else m ++ [(k, v)]

/-- Model of `HashMap::extend`: insert every entry of `rhs`, overwriting the
value of a key already present (right-biased union). -/
def extendA (m rhs : AssocMap κ α) : AssocMap κ α :=
  rhs.foldl (fun acc kv => insertA kv.1 kv.2 acc) m

/-- Model of `HashMap::remove` restricted to its effect on the map. -/
def removeA (k : κ) (m : AssocMap κ α) : AssocMap κ α :=
  m.filter (fun kv => decide (kv.1 ≠ k))

/-- Type invariant of a real `HashMap`: keys are pairwise distinct. -/
def WF (m : AssocMap κ α) : Prop :=
  (keysA m).Nodup

/-- Model of `HashMap::eq`: two maps are equal when they hold the same set of
entries, regardless of iteration order. -/
def mapEqb (m₁ m₂ : AssocMap κ α) : Bool :=
  m₁.all (fun kv => decide (lookupA kv.1 m₂ = some kv.2)) &&
    m₂.all (fun kv => decide (lookupA kv.1 m₁ = some kv.2))

end AssocMap

/-- Left-biased choice on `Option`, used to state lookup specifications of
right-biased map unions. -/
def oOr {α : Type} : Option α → Option α → Option α
  | some v, _ => some v
  | none, b => b

open AssocMap

/-- Embedding of the `Access` bit flags of `src/policy.rs` (bits `R`, `W`,
`X` of a `u8`); each flag is one boolean field. -/
structure Access where
  r : Bool
  w : Bool
  x : Bool
deriving DecidableEq, Repr

namespace Access

/-- Model of `Access::empty()`. -/
def empty : Access := ⟨false, false, false⟩

/-- Model of `Access::R`. -/
def R : Access := ⟨true, false, false⟩

/-- Model of `Access::W`. -/
def W : Access := ⟨false, true, false⟩

/-- Model of `Access::X`. -/
def X : Access := ⟨false, false, true⟩

/-- Bitwise or of two `Access` values (`|` on the underlying `u8`). -/
def or (a b : Access) : Access :=
  ⟨a.r || b.r, a.w || b.w, a.x || b.x⟩

/-- Embedding of `impl Display for Access` (`src/policy.rs:26-40`): the
present letters are concatenated in the fixed order `R`, `W`, `X`. -/
def display (a : Access) : String :=
  (if a.r then "R" else "") ++ (if a.w then "W" else "") ++ (if a.x then "X" else "")

end Access

/-- Embedding of the unit error struct `AccessParseError` of `src/policy.rs`. -/
inductive AccessParseError where
  | invalidAccessString
deriving DecidableEq, Repr

/-- Loop body of `impl FromStr for Access` (`src/policy.rs:50-65`): fold over
the characters, or-ing in the flag of each recognized letter and returning
the parse error on the first unrecognized character. -/
def Access.fromChars : List Char → Access → Except AccessParseError Access
  | [], acc => .ok acc
  | c :: rest, acc =>
    if c = 'R' then Access.fromChars rest (acc.or Access.R)
    else if c = 'W' then Access.fromChars rest (acc.or Access.W)
    else if c = 'X' then Access.fromChars rest (acc.or Access.X)
    else .error .invalidAccessString

/-- Embedding of `Access::from_str` (`src/policy.rs:50-65`). -/
def Access.fromStr (s : String) : Except AccessParseError Access :=
  Access.fromChars s.data Access.empty

/-- Embedding of the external `SAuthentication` enum as the spec describes it
(`{Skip, Perform}`). -/
inductive SAuthentication where
  | skip
  | perform
deriving DecidableEq, Repr

/-- Embedding of the `Policy` struct of `src/policy.rs:87-96`.  `Vec` fields
become lists and `HashMap` fields become `AssocMap`s. -/
structure Policy where
  setuid : Option Nat
  setgid : Option (List Nat)
  capabilities : List String
  files : AssocMap String Access
  dbus : List String
  env_vars : AssocMap String String
  password_prompt : SAuthentication
deriving DecidableEq, Repr

namespace Policy

/-- Embedding of `impl Default for Policy` (`src/policy.rs:130-142`). -/
def default : Policy :=
  { capabilities := []
    files := []
    dbus := []
    setuid := none
    setgid := none
    env_vars := []
    password_prompt := .perform }

/-- Embedding of `impl BitOr for Policy` (`src/policy.rs:144-179`), the merge
operator of the convergence loop.  The Rust body clones `self.files`, inserts
the bitwise or of the two values for every key present in both maps, and then
calls `files.extend(rhs.files)` — which overwrites the value of every key of
`rhs.files`, the just-inserted ors included.  The password-prompt mismatch
branch only emits a `warn!` log line and is therefore not modelled. -/
def bitor (self rhs : Policy) : Policy :=
  let capabilities := self.capabilities ++ rhs.capabilities
  let files := self.files
  let intersection := (keysA self.files).filter (fun k => containsKeyA k rhs.files)
  let files := intersection.foldl
    (fun fs key =>
      insertA key
        (Access.or ((lookupA key self.files).getD Access.empty)
          ((lookupA key rhs.files).getD Access.empty)) fs)
    files
  let files := extendA files rhs.files
  let dbus := self.dbus ++ rhs.dbus
  let env := extendA self.env_vars rhs.env_vars
  { capabilities := capabilities
    files := files
    dbus := dbus
    setuid := self.setuid.or rhs.setuid
    setgid := self.setgid.or rhs.setgid
    env_vars := env
    password_prompt := self.password_prompt }

/-- Embedding of the derived `PartialEq` of `Policy` — the structural equality
the convergence loop tests with `p == *policy`.  `Vec` fields compare
element-wise in order; `HashMap` fields compare as sets of entries. -/
def req (a b : Policy) : Bool :=
  decide (a.setuid = b.setuid) && decide (a.setgid = b.setgid) &&
    decide (a.capabilities = b.capabilities) && mapEqb a.files b.files &&
    decide (a.dbus = b.dbus) && mapEqb a.env_vars b.env_vars &&
    decide (a.password_prompt = b.password_prompt)

/-- Well-formedness of a `Policy`: its `HashMap`-backed fields satisfy the
`HashMap` key-uniqueness invariant. -/
def WFp (p : Policy) : Prop :=
  WF p.files ∧ WF p.env_vars

end Policy

/-- Observable side effects of one pass of `fail_then_add_loop`
(`src/main.rs:252-301`): escalating the process credentials to root,
revoking (`policy.remove`) or enforcing (`policy.apply`) the policy for the
identity, and surfacing the captured stdout/stderr of the last probe. -/
inductive LoopEvent where
  | escalate
  | revoke (p : Policy)
  | enforce (p : Policy)
  | printOutput
deriving DecidableEq, Repr

/-- Mutable state of `fail_then_add_loop` (`src/main.rs:252-301`): the index
of the next probe, the `first` flag, the `looping` counter, the policy
accumulator `*policy`, the prober flags `has_ran`/`is_failed`, and the
side-effect log. -/
structure LoopState where
  idx : Nat
  first : Bool
  looping : Nat
  policy : Policy
  ran : Bool
  failed : Bool
  events : List LoopEvent
deriving DecidableEq, Repr

/-- Result of running `fail_then_add_loop` with a bounded number of loop
iterations: normal exit with the final `*policy`, the
`Failed to get policy` error return (`DiscoveryDidNotConverge`), or fuel
exhaustion (the loop would keep iterating). -/
inductive LoopResult where
  | converged (policy : Policy) (events : List LoopEvent)
  | didNotConverge (events : List LoopEvent)
  | outOfFuel (s : LoopState)
deriving DecidableEq, Repr

/-- Outcome of probe number `n`: the `Policy` parsed from the tracer's scratch
file and the `is_failed` flag recorded by `Capable::run`.  A trace abstracts
the external tracer subprocess driven by the loop. -/
def ProbeTrace := Nat → Policy × Bool

/-- Events appended at the start of one loop iteration: the escalation to
root (`setuid(0)`/`setgid(0)`/`setgroups([0])`) performed when
`looping > 0`. -/
def escalateEvents (s : LoopState) : List LoopEvent :=
  if 0 < s.looping then s.events ++ [.escalate] else s.events

/-- Events accumulated by one non-error loop iteration, in the order of the
Rust body: the escalation events, then `policy.remove(username)` unless this
is the first iteration, then `policy.apply(username, ...)` when the probe
failed. -/
def nextEvents (trace : ProbeTrace) (s : LoopState) : List LoopEvent :=
  if (trace s.idx).2 then
    (if !s.first then escalateEvents s ++ [.revoke s.policy] else escalateEvents s)
      ++ [.enforce (trace s.idx).1]
  else
    (if !s.first then escalateEvents s ++ [.revoke s.policy] else escalateEvents s)

/-- Embedding of `fail_then_add_loop` (`src/main.rs:252-301`), one recursion
step per loop iteration, with `fuel` bounding the number of iterations.  Each
iteration follows the Rust body: re-check `!capable.has_ran() ||
capable.is_failed()`; if `looping > 0`, escalate to root; run the probe; if
`looping > 0` and the probe failed, revoke the enforced policy, print the
captured output and return the `Failed to get policy` error; otherwise bump or
reset `looping` according to `p == *policy`, revoke the previous policy unless
this is the first iteration, adopt `p`, and enforce it when the probe
failed. -/
def loopGo (trace : ProbeTrace) : Nat → LoopState → LoopResult
  | 0, s => .outOfFuel s
  | fuel + 1, s =>
    if !s.ran || s.failed then
      if 0 < s.looping && (trace s.idx).2 then
        .didNotConverge (escalateEvents s ++ [.revoke s.policy, .printOutput])
      else
        loopGo trace fuel
          { idx := s.idx + 1
            first := false
            looping := if Policy.req (trace s.idx).1 s.policy then s.looping + 1 else 0
            policy := (trace s.idx).1
            ran := true
            failed := (trace s.idx).2
            events := nextEvents trace s }
    else
      .converged s.policy s.events

/-- Initial state of `fail_then_add_loop`: `first = true`, `looping = 0`, the
`*policy` accumulator seeded by the caller, and a prober that has not run
yet. -/
def initLoopState (policy : Policy) : LoopState :=
  { idx := 0
    first := true
    looping := 0
    policy := policy
    ran := false
    failed := false
    events := [] }

/-- Error taxonomy of the embedded `deploy.rs` operations: `ioError` stands
for a propagated `std::io::Error` (for polkit, `File::open` on a missing
document), `aclIo` for a failed POSIX ACL read/write, `invalidPermission` for
`str_to_permission` rejecting a character, and `userNotFound` for the
`User::from_name(...)?.expect(...)` panic path of `remove_policy`. -/
inductive DeployErr where
  | ioError
  | aclIo
  | invalidPermission
  | userNotFound
deriving DecidableEq, Repr

/-- Content of the polkit JSON document `rootasrole.json`: a map from
identity to its granted action set (`type PolkitPolicy =
HashMap<String, HashSet<String>>`, `src/deploy.rs:187-189`).  The
`HashSet` is modelled as a list queried by membership. -/
abbrev PolkitPolicy := AssocMap String (List String)

/-- State of the polkit document file: `none` when `rootasrole.json` does not
exist, `some m` when it holds the serialized map `m`. -/
abbrev PolkitDoc := Option PolkitPolicy

/-- Model of `HashSet::extend`: insert each element not already present. -/
def extendSet (s perms : List String) : List String :=
  perms.foldl (fun acc p => if p ∈ acc then acc else acc ++ [p]) s

/-- Embedding of `PolkitPolicyWorker::add_policy` (`src/deploy.rs:208-223`).
The Rust body reads the document if the file exists (an empty map otherwise)
and then runs `policy.get_mut(user).get_or_insert(&mut
HashSet::new()).extend(permissions)`: when the user is present, the borrowed
set inside the map is extended in place; when the user is absent,
`get_or_insert` fills the local `Option` with a reference to a fresh
temporary set, which is extended and then dropped, leaving the map
unchanged.  The (possibly unchanged) map is then written back. -/
def PolkitPolicyWorker.add_policy (doc : PolkitDoc) (user : String)
    (dbus_permissions : List String) : Except DeployErr PolkitDoc :=
  let policy : PolkitPolicy := match doc with
    | some m => m
    | none => []
  let policy :=
    if containsKeyA user policy then
      insertA user (extendSet ((lookupA user policy).getD []) dbus_permissions) policy
    else policy
  .ok (some policy)

/-- Embedding of `PolkitPolicyWorker::polkit_policy` (`src/deploy.rs:237-241`):
deserialize the document, propagating the `File::open` error when the file
does not exist. -/
def PolkitPolicyWorker.polkit_policy (doc : PolkitDoc) : Except DeployErr PolkitPolicy :=
  match doc with
  | none => .error .ioError
  | some m => .ok m

/-- Embedding of `PolkitPolicyWorker::check_policy` (`src/deploy.rs:229-235`):
read the document, then report whether the user's action set contains the
action; a user absent from the document yields `Ok(false)`. -/
def PolkitPolicyWorker.check_policy (doc : PolkitDoc) (user action : String) :
    Except DeployErr Bool := do
  let policy ← PolkitPolicyWorker.polkit_policy doc
  match lookupA user policy with
  | some actions => return actions.contains action
  | none => return false

/-- Embedding of `PolkitPolicyWorker::del_policy` (`src/deploy.rs:252-258`):
read the document (failing when absent), remove the user's entry, and write
the document back. -/
def PolkitPolicyWorker.del_policy (doc : PolkitDoc) (username : String) :
    Except DeployErr PolkitDoc := do
  let policy ← PolkitPolicyWorker.polkit_policy doc
  .ok (some (removeA username policy))

/-- Capability-set bookkeeping of the `Capable` prober (`src/capable.rs`):
`caps` is the capability set currently being tried and `previous_caps` the
set tried before.  A `capctl::CapSet` is a bit mask, modelled as a natural
number whose bit `i` is capability number `i`. -/
structure CapableCaps where
  previous_caps : Nat
  caps : Nat
deriving DecidableEq, Repr

/-- Embedding of `Capable::add_caps` (`src/capable.rs:278-281`): save the
current set into `previous_caps` and or the delta into `caps`.  The function
is total — the Rust body performs no check of any kind. -/
def Capable.add_caps (s : CapableCaps) (caps : Nat) : CapableCaps :=
  { previous_caps := s.caps
    caps := s.caps ||| caps }

/-- Error signalled by the specified (not implemented) bounding-set check of
`add_caps`. -/
inductive CapErr where
  | capabilityBoundingViolation
deriving DecidableEq, Repr

/-- Modelled from the spec: `add_caps(delta)` as §4.1 describes it — missing
from `src/capable.rs`, whose `add_caps` never checks anything.  The spec
says: "unions `delta` into the attempted set; signals a fatal misuse error if
`delta` contains a capability outside the current process's bounding set".
`bounding` is the bit mask of the process's bounding set. -/
def add_caps_spec (bounding : Nat) (s : CapableCaps) (delta : Nat) :
    Except CapErr CapableCaps :=
  if delta &&& bounding = delta then
    .ok { previous_caps := s.caps, caps := s.caps ||| delta }
  else
    .error .capabilityBoundingViolation

/-- Truncation to a 32-bit word. -/
def w32 (n : Nat) : Nat := n % 4294967296

/-- Right rotation of a 32-bit word by `k` bits. -/
def rotr32 (k n : Nat) : Nat := w32 ((n >>> k) ||| (n <<< (32 - k)))

/-- SHA-2 choice function. -/
def shaCh (e f g : Nat) : Nat := (e &&& f) ^^^ ((w32 (2 ^ 32 - 1 - w32 e)) &&& g)

/-- SHA-2 majority function. -/
def shaMaj (a b c : Nat) : Nat := (a &&& b) ^^^ (a &&& c) ^^^ (b &&& c)

/-- SHA-2 big sigma 0. -/
def bsig0 (x : Nat) : Nat := rotr32 2 x ^^^ rotr32 13 x ^^^ rotr32 22 x

/-- SHA-2 big sigma 1. -/
def bsig1 (x : Nat) : Nat := rotr32 6 x ^^^ rotr32 11 x ^^^ rotr32 25 x

/-- SHA-2 small sigma 0. -/
def lsig0 (x : Nat) : Nat := rotr32 7 x ^^^ rotr32 18 x ^^^ (x >>> 3)

/-- SHA-2 small sigma 1. -/
def lsig1 (x : Nat) : Nat := rotr32 17 x ^^^ rotr32 19 x ^^^ (x >>> 10)

/-- SHA-256/224 round constants (FIPS 180-4), written in decimal. -/
def shaK : List Nat :=
  [1116352408, 1899447441, 3049323471, 3921009573, 961987163,
   1508970993, 2453635748, 2870763221, 3624381080, 310598401,
   607225278, 1426881987, 1925078388, 2162078206, 2614888103,
   3248222580, 3835390401, 4022224774, 264347078, 604807628,
   770255983, 1249150122, 1555081692, 1996064986, 2554220882,
   2821834349, 2952996808, 3210313671, 3336571891, 3584528711,
   113926993, 338241895, 666307205, 773529912, 1294757372,
   1396182291, 1695183700, 1986661051, 2177026350, 2456956037,
   2730485921, 2820302411, 3259730800, 3345764771, 3516065817,
   3600352804, 4094571909, 275423344, 430227734, 506948616,
   659060556, 883997877, 958139571, 1322822218, 1537002063,
   1747873779, 1955562222, 2024104815, 2227730452, 2361852424,
   2428436474, 2756734187, 3204031479, 3329325298]

/-- SHA-224 initial hash values (FIPS 180-4), written in decimal. -/
def sha224IV : List Nat :=
  [3238371032, 914150663, 812702999, 4144912697,
   4290775857, 1750603025, 1694076839, 3204075428]

/-- One message-schedule extension step: append word `t` computed from the
words at `t-2`, `t-7`, `t-15` and `t-16`. -/
def scheduleStep (ws : List Nat) : List Nat :=
  let t := ws.length
  ws ++ [w32 (lsig1 (ws.getD (t - 2) 0) + ws.getD (t - 7) 0 +
    lsig0 (ws.getD (t - 15) 0) + ws.getD (t - 16) 0)]

/-- Full 64-word message schedule of one block. -/
def fullSchedule (block : List Nat) : List Nat :=
  (List.range 48).foldl (fun ws _ => scheduleStep ws) block

/-- Working registers of the SHA-2 compression function. -/
structure Sha2Regs where
  a : Nat
  b : Nat
  c : Nat
  d : Nat
  e : Nat
  f : Nat
  g : Nat
  h : Nat
deriving DecidableEq, Repr

/-- One SHA-2 compression round. -/
def compressRound (st : Sha2Regs) (k w : Nat) : Sha2Regs :=
  let t1 := w32 (st.h + bsig1 st.e + shaCh st.e st.f st.g + k + w)
  let t2 := w32 (bsig0 st.a + shaMaj st.a st.b st.c)
  { a := w32 (t1 + t2), b := st.a, c := st.b, d := st.c
    e := w32 (st.d + t1), f := st.e, g := st.f, h := st.g }

/-- SHA-2 compression of one 16-word block into the running hash. -/
def compressBlock (hs : List Nat) (block : List Nat) : List Nat :=
  let ws := fullSchedule block
  let st0 : Sha2Regs :=
    { a := hs.getD 0 0, b := hs.getD 1 0, c := hs.getD 2 0, d := hs.getD 3 0
      e := hs.getD 4 0, f := hs.getD 5 0, g := hs.getD 6 0, h := hs.getD 7 0 }
  let st := (shaK.zip ws).foldl (fun st kw => compressRound st kw.1 kw.2) st0
  [w32 (hs.getD 0 0 + st.a), w32 (hs.getD 1 0 + st.b), w32 (hs.getD 2 0 + st.c),
   w32 (hs.getD 3 0 + st.d), w32 (hs.getD 4 0 + st.e), w32 (hs.getD 5 0 + st.f),
   w32 (hs.getD 6 0 + st.g), w32 (hs.getD 7 0 + st.h)]

/-- Big-endian 8-byte encoding of a message bit length. -/
def be64 (n : Nat) : List Nat :=
  [(n >>> 56) % 256, (n >>> 48) % 256, (n >>> 40) % 256, (n >>> 32) % 256,
   (n >>> 24) % 256, (n >>> 16) % 256, (n >>> 8) % 256, n % 256]

/-- SHA-2 message padding: a `0x80` byte, zeros up to 56 mod 64, then the
bit length. -/
def padMessage (msg : List Nat) : List Nat :=
  let zeros := (64 - (msg.length + 9) % 64) % 64
  msg ++ [0x80] ++ List.replicate zeros 0 ++ be64 (msg.length * 8)

/-- Split a padded byte list into 64-byte blocks. -/
def toBlocks (l : List Nat) : List (List Nat) :=
  if _h : l.length = 0 then []
  else l.take 64 :: toBlocks (l.drop 64)
termination_by l.length
decreasing_by
  simp only [List.length_drop]
  omega

/-- Big-endian packing of bytes into 32-bit words. -/
def bytesToWords : List Nat → List Nat
  | b0 :: b1 :: b2 :: b3 :: rest =>
    ((b0 <<< 24) ||| (b1 <<< 16) ||| (b2 <<< 8) ||| b3) :: bytesToWords rest
  | _ => []

/-- Big-endian unpacking of 32-bit words into bytes. -/
def wordsToBytes (ws : List Nat) : List Nat :=
  ws.flatMap (fun w => [(w >>> 24) % 256, (w >>> 16) % 256, (w >>> 8) % 256, w % 256])

/-- SHA-224 digest of a byte list: the first seven words of the SHA-2
compression chain started from the SHA-224 initial values. -/
def sha224 (msg : List Nat) : List Nat :=
  wordsToBytes ((((toBlocks (padMessage msg)).map bytesToWords).foldl
    compressBlock sha224IV).take 7)

/-- Lower-case hexadecimal digit. -/
def hexDigit (n : Nat) : Char :=
  if n < 10 then Char.ofNat (48 + n) else Char.ofNat (87 + n)

/-- Model of `hex::encode`: lower-case hexadecimal encoding of a byte list. -/
def hexEncode (bs : List Nat) : String :=
  ⟨bs.flatMap (fun b => [hexDigit (b / 16), hexDigit (b % 16)])⟩

/-- UTF-8 bytes of a string (`str::as_bytes`). -/
def utf8Bytes (s : String) : List Nat :=
  s.toUTF8.toList.map (fun b => b.toNat)

/-- Embedding of `get_username_ansible` (`src/main.rs:328-335`): update a
SHA-224 hasher with the playbook bytes and then the task bytes, hex-encode
the digest, and prepend the `rar_` scheme prefix. -/
def get_username_ansible (playbook task : String) : String :=
  "rar_" ++ hexEncode (sha224 (utf8Bytes playbook ++ utf8Bytes task))

/-- Embedding of `get_username_gensr` (`src/main.rs:337-345`): update a
SHA-224 hasher with the bytes of each command token in order, hex-encode the
digest, and prepend the `gsr_` scheme prefix. -/
def get_username_gensr (command : List String) : String :=
  "gsr_" ++ hexEncode (sha224 (command.flatMap utf8Bytes))

/-- Loop body of `str_to_permission` (`src/deploy.rs:261-272`): fold over the
characters, or-ing in the ACL bit of each recognized letter (`posix_acl`'s
`ACL_READ`/`ACL_WRITE`/`ACL_EXECUTE` carry the same bit layout as `Access`)
and failing on the first unrecognized character. -/
def str_to_permission_go : List Char → Access → Except DeployErr Access
  | [], perms => .ok perms
  | c :: rest, perms =>
    if c = 'r' ∨ c = 'R' then str_to_permission_go rest (perms.or Access.R)
    else if c = 'w' ∨ c = 'W' then str_to_permission_go rest (perms.or Access.W)
    else if c = 'x' ∨ c = 'X' then str_to_permission_go rest (perms.or Access.X)
    else .error .invalidPermission

/-- Embedding of `str_to_permission` (`src/deploy.rs:261-272`). -/
def str_to_permission (perm : String) : Except DeployErr Access :=
  str_to_permission_go perm.data Access.empty

/-- OS-level state touched by the `deploy.rs` enforcement and teardown code:
the system accounts (`useradd`/`userdel`), the files that exist on disk
(reading the ACL of a missing path fails), the per-`(path, account)` POSIX
ACL entries, the identities owning a `<identity>.conf` file in the managed
D-Bus directory, and the polkit document.  ACL entries are keyed by account
name — each account name resolves to one uid. -/
structure SysState where
  accounts : List String
  pathsOnDisk : List String
  aclEntries : AssocMap (String × String) Access
  dbusFiles : List String
  polkit : PolkitDoc
deriving DecidableEq, Repr

/-- Embedding of `set_acl` (`src/deploy.rs:274-291`): read the path's ACL
(failing when the path does not exist), or the parsed permission bits into
the account's current entry, and write the ACL back. -/
def set_acl (st : SysState) (user path : String) (permissions : String) :
    Except DeployErr SysState :=
  if path ∈ st.pathsOnDisk then do
    let current := (lookupA (path, user) st.aclEntries).getD Access.empty
    let p ← str_to_permission permissions
    .ok { st with aclEntries := insertA (path, user) (current.or p) st.aclEntries }
  else .error .aclIo

/-- Embedding of `del_acl` (`src/deploy.rs:293-298`): read the path's ACL
(failing when the path does not exist), drop the account's entry entirely,
and write the ACL back. -/
def del_acl (st : SysState) (user path : String) : Except DeployErr SysState :=
  if path ∈ st.pathsOnDisk then
    .ok { st with aclEntries := removeA (path, user) st.aclEntries }
  else .error .aclIo

/-- Embedding of `useradd` (`src/deploy.rs:386-415`): return the existing
account when present, create a fresh system account otherwise.  The
process-spawn failure of `/usr/bin/useradd` is not modelled — creation
succeeds. -/
def useradd (st : SysState) (username : String) : Except DeployErr SysState :=
  if username ∈ st.accounts then .ok st
  else .ok { st with accounts := st.accounts ++ [username] }

/-- Embedding of `userdel` (`src/deploy.rs:381-384`): run `userdel -r`; the
exit status is discarded (`.status()?` only fails when the process cannot be
spawned), so the account is removed when it exists and nothing happens
otherwise. -/
def userdel (st : SysState) (username : String) : SysState :=
  { st with accounts := st.accounts.filter (fun a => decide (a ≠ username)) }

/-- Embedding of `enforce_policy` (`src/deploy.rs:345-363`): idempotently
create the backing account, grant an ACL entry per `(path, access)` of the
policy, write the identity's D-Bus policy file, and grant the polkit actions.
`builder.build()` (the idempotent `includedir` insertion into the global
`system.conf`) and `worker.build()` (rematerializing the static
`rootasrole.js` rule script) touch no per-identity state and are not
modelled. -/
def enforce_policy (username : String) (policy : Policy) (st : SysState) :
    Except DeployErr SysState := do
  let st ← useradd st username
  let st ← policy.files.foldlM (fun st pr => set_acl st username pr.1 pr.2.display) st
  let st := { st with
    dbusFiles := if username ∈ st.dbusFiles then st.dbusFiles else st.dbusFiles ++ [username] }
  let doc ← PolkitPolicyWorker.add_policy st.polkit username policy.dbus
  .ok { st with polkit := doc }

/-- Embedding of `remove_policy` (`src/deploy.rs:365-379`): resolve the
account (the `User::from_name(...)?.expect(...)` panic path fires when it is
absent), drop the account's ACL entry for every path of the policy, delete
the account with `userdel`, delete the identity's D-Bus policy file when it
exists, and drop the identity from the polkit document. -/
def remove_policy (username : String) (policy : Policy) (st : SysState) :
    Except DeployErr SysState := do
  if username ∈ st.accounts then
    let st ← policy.files.foldlM (fun st pr => del_acl st username pr.1) st
    let st := userdel st username
    let st := { st with dbusFiles := st.dbusFiles.filter (fun f => decide (f ≠ username)) }
    let doc ← PolkitPolicyWorker.del_policy st.polkit username
    .ok { st with polkit := doc }
  else .error .userNotFound

/-! Helper lemmas about the association-list model of `HashMap`. -/

namespace AssocMap

variable {κ α : Type} [DecidableEq κ] [DecidableEq α]

theorem keysA_nil : keysA ([] : AssocMap κ α) = [] := rfl

theorem keysA_cons (kv : κ × α) (m : AssocMap κ α) :
    keysA (kv :: m) = kv.1 :: keysA m := rfl

theorem containsKeyA_iff {k : κ} {m : AssocMap κ α} :
    containsKeyA k m = true ↔ k ∈ keysA m := by
  induction m with
  | nil => simp [containsKeyA, keysA]
  | cons kv rest ih =>
    by_cases h : kv.1 = k
    · simp [containsKeyA, keysA_cons, List.any_cons, h]
    · simp [containsKeyA, keysA_cons, List.any_cons, h, Ne.symm h]
      simpa [containsKeyA] using ih

theorem lookupA_eq_none_iff {k : κ} {m : AssocMap κ α} :
    lookupA k m = none ↔ k ∉ keysA m := by
  induction m with
  | nil => simp [lookupA, keysA]
  | cons kv rest ih =>
    by_cases h : kv.1 = k
    · simp [lookupA, h, keysA_cons]
    · simp [lookupA, h, keysA_cons, ih, Ne.symm h]

theorem lookupA_mem {k : κ} {v : α} {m : AssocMap κ α}
    (h : lookupA k m = some v) : (k, v) ∈ m := by
  induction m with
  | nil => simp [lookupA] at h
  | cons kv rest ih =>
    by_cases hk : kv.1 = k
    · rw [lookupA, if_pos hk] at h
      have : kv = (k, v) := by
        rcases kv with ⟨k0, v0⟩
        simp only at hk
        simp only [Option.some.injEq] at h
        simp [hk, h]
      rw [← this]
      exact List.mem_cons_self _ _
    · rw [lookupA, if_neg hk] at h
      exact List.mem_cons_of_mem _ (ih h)

theorem lookupA_of_mem {k : κ} {v : α} {m : AssocMap κ α}
    (hwf : WF m) (h : (k, v) ∈ m) : lookupA k m = some v := by
  induction m with
  | nil => simp at h
  | cons kv rest ih =>
    have hwf' := List.nodup_cons.mp hwf
    rcases List.mem_cons.mp h with h | h
    · rw [← h]
      simp [lookupA]
    · have hmem : k ∈ keysA rest := by
        simp only [keysA, List.mem_map]
        exact ⟨(k, v), h, rfl⟩
      have hne : kv.1 ≠ k := fun he => hwf'.1 (he ▸ hmem)
      rw [lookupA, if_neg hne]
      exact ih hwf'.2 h

theorem keysA_map_replace (k : κ) (v : α) (m : AssocMap κ α) :
    keysA (m.map (fun kv => if kv.1 = k then (k, v) else kv)) = keysA m := by
  induction m with
  | nil => rfl
  | cons kv₀ rest ih =>
    by_cases h₀ : kv₀.1 = k
    · simp [keysA_cons, h₀, ih]
    · simp [keysA_cons, h₀, ih]

theorem keysA_insertA_of_contains {k : κ} {v : α} {m : AssocMap κ α}
    (h : containsKeyA k m = true) : keysA (insertA k v m) = keysA m := by
  rw [insertA, if_pos h]
  exact keysA_map_replace k v m

theorem WF_insertA {k : κ} {v : α} {m : AssocMap κ α} (h : WF m) :
    WF (insertA k v m) := by
  by_cases hc : containsKeyA k m = true
  · unfold WF
    rw [keysA_insertA_of_contains hc]
    exact h
  · unfold WF
    rw [insertA, if_neg hc]
    have hk : k ∉ keysA m := fun hm => hc (containsKeyA_iff.mpr hm)
    simp only [keysA, List.map_append, List.map_cons, List.map_nil]
    rw [List.nodup_append]
    refine ⟨h, List.nodup_singleton k, ?_⟩
    intro a ha hb
    simp only [List.mem_singleton] at hb
    subst hb
    exact hk ha

theorem WF_extendA {m rhs : AssocMap κ α} (h : WF m) : WF (extendA m rhs) := by
  induction rhs generalizing m with
  | nil => exact h
  | cons kv rest ih => exact ih (WF_insertA h)

theorem lookupA_map_replace_self (k : κ) (v : α) (m : AssocMap κ α)
    (hk : k ∈ keysA m) :
    lookupA k (m.map (fun kv => if kv.1 = k then (k, v) else kv)) = some v := by
  induction m with
  | nil => simp [keysA] at hk
  | cons kv₀ rest ih =>
    by_cases h₀ : kv₀.1 = k
    · simp [lookupA, h₀]
    · have hk' : k ∈ keysA rest := by
        rcases (List.mem_cons.mp hk) with h | h
        · exact absurd h.symm h₀
        · exact h
      simp only [List.map_cons, if_neg h₀, lookupA, if_neg h₀]
      exact ih hk'

theorem lookupA_map_replace_ne (k k' : κ) (v : α) (m : AssocMap κ α)
    (h : k' ≠ k) :
    lookupA k' (m.map (fun kv => if kv.1 = k then (k, v) else kv)) = lookupA k' m := by
  induction m with
  | nil => rfl
  | cons kv₀ rest ih =>
    by_cases h₀ : kv₀.1 = k
    · have h₀' : ¬(k = k') := fun he => h he.symm
      simp only [List.map_cons, if_pos h₀, lookupA, if_neg h₀', ih]
      rw [if_neg (h₀ ▸ h₀' : ¬(kv₀.1 = k'))]
    · simp only [List.map_cons, if_neg h₀, lookupA, ih]

theorem lookupA_append_single_self {k : κ} {v : α} {m : AssocMap κ α}
    (hk : k ∉ keysA m) : lookupA k (m ++ [(k, v)]) = some v := by
  induction m with
  | nil => simp [lookupA]
  | cons kv₀ rest ih =>
    have h₀ : kv₀.1 ≠ k := fun he => hk (by
      rw [keysA_cons, he]
      exact List.mem_cons_self _ _)
    rw [List.cons_append, lookupA, if_neg h₀]
    exact ih (fun hm => hk (by
      rw [keysA_cons]
      exact List.mem_cons.mpr (Or.inr hm)))

theorem lookupA_append_single_ne {k k' : κ} {v : α} {m : AssocMap κ α}
    (h : k' ≠ k) : lookupA k' (m ++ [(k, v)]) = lookupA k' m := by
  induction m with
  | nil => simp [lookupA, Ne.symm h]
  | cons kv₀ rest ih =>
    by_cases h₁ : kv₀.1 = k'
    · simp [lookupA, h₁]
    · simp [lookupA, h₁, ih]

theorem lookupA_insertA_self {k : κ} {v : α} {m : AssocMap κ α} :
    lookupA k (insertA k v m) = some v := by
  unfold insertA
  by_cases hc : containsKeyA k m = true
  · rw [if_pos hc]
    exact lookupA_map_replace_self k v m (containsKeyA_iff.mp hc)
  · rw [if_neg hc]
    exact lookupA_append_single_self (fun hm => hc (containsKeyA_iff.mpr hm))

theorem lookupA_insertA_ne {k k' : κ} {v : α} {m : AssocMap κ α} (h : k' ≠ k) :
    lookupA k' (insertA k v m) = lookupA k' m := by
  unfold insertA
  by_cases hc : containsKeyA k m = true
  · rw [if_pos hc]
    exact lookupA_map_replace_ne k k' v m h
  · rw [if_neg hc]
    exact lookupA_append_single_ne h

theorem oOr_some {β : Type} (v : β) (b : Option β) : oOr (some v) b = some v := rfl

theorem oOr_none {β : Type} (b : Option β) : oOr none b = b := rfl

theorem lookupA_extendA {k : κ} {m rhs : AssocMap κ α} (h : WF rhs) :
    lookupA k (extendA m rhs) = oOr (lookupA k rhs) (lookupA k m) := by
  induction rhs generalizing m with
  | nil => simp [extendA, lookupA, oOr_none]
  | cons kv rest ih =>
    rw [WF, keysA_cons, List.nodup_cons] at h
    have hstep : extendA m (kv :: rest) = extendA (insertA kv.1 kv.2 m) rest := rfl
    rw [hstep, ih h.2]
    by_cases hk : kv.1 = k
    · subst hk
      rw [lookupA_eq_none_iff.mpr h.1, oOr_none, lookupA_insertA_self]
      rw [lookupA, if_pos rfl, oOr_some]
    · rw [lookupA, if_neg hk]
      cases hlr : lookupA k rest with
      | some v => rw [oOr_some, oOr_some]
      | none => rw [oOr_none, oOr_none, lookupA_insertA_ne (fun he => hk he.symm)]

theorem lookupA_foldl_insertA_of_not_mem {k : κ} {ks : List κ} {f : κ → α}
    {m : AssocMap κ α} (h : k ∉ ks) :
    lookupA k (ks.foldl (fun fs key => insertA key (f key) fs) m) = lookupA k m := by
  induction ks generalizing m with
  | nil => rfl
  | cons k₀ rest ih =>
    have h₀ : k ≠ k₀ := fun he => h (he ▸ List.mem_cons_self _ _)
    rw [List.foldl_cons, ih (fun hm => h (List.mem_cons.mpr (Or.inr hm))),
      lookupA_insertA_ne h₀]

theorem WF_foldl_insertA {ks : List κ} {f : κ → α} {m : AssocMap κ α}
    (h : WF m) : WF (ks.foldl (fun fs key => insertA key (f key) fs) m) := by
  induction ks generalizing m with
  | nil => exact h
  | cons k₀ rest ih => exact ih (WF_insertA h)

theorem mapEqb_eq_true_iff {m₁ m₂ : AssocMap κ α} :
    mapEqb m₁ m₂ = true ↔
      ((∀ kv ∈ m₁, lookupA kv.1 m₂ = some kv.2) ∧
        (∀ kv ∈ m₂, lookupA kv.1 m₁ = some kv.2)) := by
  simp [mapEqb, List.all_eq_true]

theorem mapEqb_iff_lookup {m₁ m₂ : AssocMap κ α} (h₁ : WF m₁) (h₂ : WF m₂) :
    mapEqb m₁ m₂ = true ↔ ∀ k, lookupA k m₁ = lookupA k m₂ := by
  rw [mapEqb_eq_true_iff]
  constructor
  · rintro ⟨ha, hb⟩ k
    cases hl : lookupA k m₁ with
    | some v => rw [ha (k, v) (lookupA_mem hl)]
    | none =>
      cases hr : lookupA k m₂ with
      | some v =>
        have := hb (k, v) (lookupA_mem hr)
        rw [hl] at this
        exact absurd this (by simp)
      | none => rfl
  · intro h
    constructor
    · intro kv hkv
      rw [← h kv.1]
      exact lookupA_of_mem h₁ (by rcases kv with ⟨a, b⟩; exact hkv)
    · intro kv hkv
      rw [h kv.1]
      exact lookupA_of_mem h₂ (by rcases kv with ⟨a, b⟩; exact hkv)

theorem mapEqb_trans_right {m₁ m₂ m₃ : AssocMap κ α}
    (h13 : mapEqb m₁ m₃ = true) (h23 : mapEqb m₂ m₃ = true) :
    mapEqb m₁ m₂ = true := by
  rw [mapEqb_eq_true_iff] at h13 h23 ⊢
  constructor
  · intro kv hkv
    exact h23.2 kv (lookupA_mem (h13.1 kv hkv))
  · intro kv hkv
    exact h13.2 kv (lookupA_mem (h23.1 kv hkv))

theorem lookupA_removeA_self {k : κ} {m : AssocMap κ α} :
    lookupA k (removeA k m) = none := by
  induction m with
  | nil => rfl
  | cons kv rest ih =>
    rw [removeA, List.filter_cons]
    by_cases h : kv.1 = k
    · rw [if_neg (by simp [h])]
      exact ih
    · rw [if_pos (by simp [h])]
      rw [lookupA, if_neg h]
      exact ih

theorem lookupA_removeA_ne {k k' : κ} {m : AssocMap κ α} (h : k ≠ k') :
    lookupA k (removeA k' m) = lookupA k m := by
  induction m with
  | nil => rfl
  | cons kv rest ih =>
    rw [removeA, List.filter_cons]
    by_cases h₀ : kv.1 = k'
    · rw [if_neg (by simp [h₀])]
      rw [lookupA, if_neg (show ¬(kv.1 = k) by rw [h₀]; exact fun he => h he.symm)]
      exact ih
    · rw [if_pos (by simp [h₀])]
      rw [lookupA, lookupA]
      by_cases h₁ : kv.1 = k
      · rw [if_pos h₁, if_pos h₁]
      · rw [if_neg h₁, if_neg h₁]
        exact ih

theorem containsKeyA_removeA_self {k : κ} {m : AssocMap κ α} :
    containsKeyA k (removeA k m) = false := by
  have := lookupA_eq_none_iff.mp (lookupA_removeA_self (k := k) (m := m))
  rcases hc : containsKeyA k (removeA k m) with _ | _
  · rfl
  · exact absurd (containsKeyA_iff.mp hc) this

end AssocMap

/-! Lemmas about the `Policy` merge operator. -/

namespace Policy

theorem bitor_setuid (a b : Policy) : (a.bitor b).setuid = a.setuid.or b.setuid := rfl

theorem bitor_setgid (a b : Policy) : (a.bitor b).setgid = a.setgid.or b.setgid := rfl

theorem bitor_capabilities (a b : Policy) :
    (a.bitor b).capabilities = a.capabilities ++ b.capabilities := rfl

theorem bitor_dbus (a b : Policy) : (a.bitor b).dbus = a.dbus ++ b.dbus := rfl

theorem bitor_env_vars (a b : Policy) :
    (a.bitor b).env_vars = extendA a.env_vars b.env_vars := rfl

theorem bitor_password (a b : Policy) :
    (a.bitor b).password_prompt = a.password_prompt := rfl

theorem bitor_files_def (a b : Policy) :
    (a.bitor b).files =
      extendA
        (((keysA a.files).filter (fun k => containsKeyA k b.files)).foldl
          (fun fs key =>
            insertA key
              (Access.or ((lookupA key a.files).getD Access.empty)
                ((lookupA key b.files).getD Access.empty)) fs)
          a.files)
        b.files := rfl

/-- Lookup specification of the merged `files` map: the `extend` call makes
the merge a right-biased union — for a key present in both inputs the value
of `rhs` wins, the or computed by the intersection loop having been
overwritten. -/
theorem lookupA_bitor_files {a b : Policy} (hb : WF b.files) (k : String) :
    lookupA k (a.bitor b).files = oOr (lookupA k b.files) (lookupA k a.files) := by
  rw [bitor_files_def, lookupA_extendA hb]
  cases hlb : lookupA k b.files with
  | some v => rw [oOr_some, oOr_some]
  | none =>
    rw [oOr_none, oOr_none]
    apply lookupA_foldl_insertA_of_not_mem
    intro hmem
    have hc : containsKeyA k b.files = true := by
      simpa using (List.mem_filter.mp hmem).2
    exact (lookupA_eq_none_iff.mp hlb) (containsKeyA_iff.mp hc)

theorem WF_bitor_files {a b : Policy} (ha : WF a.files) :
    WF (a.bitor b).files := by
  rw [bitor_files_def]
  exact WF_extendA (WF_foldl_insertA ha)

theorem WF_bitor_env {a b : Policy} (ha : WF a.env_vars) :
    WF (a.bitor b).env_vars := by
  rw [bitor_env_vars]
  exact WF_extendA ha

theorem WFp_bitor {a b : Policy} (ha : WFp a) : WFp (a.bitor b) :=
  ⟨WF_bitor_files ha.1, WF_bitor_env ha.2⟩

theorem req_eq_true_iff {a b : Policy} :
    req a b = true ↔
      (a.setuid = b.setuid ∧ a.setgid = b.setgid ∧
        a.capabilities = b.capabilities ∧ mapEqb a.files b.files = true ∧
        a.dbus = b.dbus ∧ mapEqb a.env_vars b.env_vars = true ∧
        a.password_prompt = b.password_prompt) := by
  simp [req, and_assoc]

theorem WFp_of_nodup {p : Policy} (hf : (keysA p.files).Nodup)
    (he : (keysA p.env_vars).Nodup) : WFp p :=
  ⟨hf, he⟩

theorem req_trans_right {a b c : Policy} (hac : req a c = true)
    (hbc : req b c = true) : req a b = true := by
  rw [req_eq_true_iff] at hac hbc ⊢
  refine ⟨hac.1.trans hbc.1.symm, hac.2.1.trans hbc.2.1.symm,
    hac.2.2.1.trans hbc.2.2.1.symm,
    mapEqb_trans_right hac.2.2.2.1 hbc.2.2.2.1,
    hac.2.2.2.2.1.trans hbc.2.2.2.2.1.symm,
    mapEqb_trans_right hac.2.2.2.2.2.1 hbc.2.2.2.2.2.1,
    hac.2.2.2.2.2.2.trans hbc.2.2.2.2.2.2.symm⟩

end Policy

/-- C1 (counterexample): `Policy` merge is not commutative under the derived
structural equality the convergence loop uses.  Two policies that each
require one distinct capability merge to capability vectors in opposite
orders, and `Vec` equality is order-sensitive, so `merge(a,b) == merge(b,a)`
is false. -/
theorem policy_merge_not_commutative_cex :
    Policy.req
      (Policy.bitor { Policy.default with capabilities := ["cap_net_raw"] }
        { Policy.default with capabilities := ["cap_sys_admin"] })
      (Policy.bitor { Policy.default with capabilities := ["cap_sys_admin"] }
        { Policy.default with capabilities := ["cap_net_raw"] }) = false := by
  decide

/-- C1 (amended): `Policy` merge is associative under the structural equality
used by the convergence loop, for policies satisfying the `HashMap`
key-uniqueness invariant; commutativity, the other half of the original
claim, fails (see the counterexample). -/
theorem policy_merge_assoc (a b c : Policy) (ha : Policy.WFp a)
    (hb : Policy.WFp b) (hc : Policy.WFp c) :
    Policy.req ((a.bitor b).bitor c) (a.bitor (b.bitor c)) = true := by
  rw [Policy.req_eq_true_iff]
  refine ⟨?_, ?_, ?_, ?_, ?_, ?_, ?_⟩
  · rw [Policy.bitor_setuid, Policy.bitor_setuid, Policy.bitor_setuid,
      Policy.bitor_setuid, Option.or_assoc]
  · rw [Policy.bitor_setgid, Policy.bitor_setgid, Policy.bitor_setgid,
      Policy.bitor_setgid, Option.or_assoc]
  · rw [Policy.bitor_capabilities, Policy.bitor_capabilities,
      Policy.bitor_capabilities, Policy.bitor_capabilities, List.append_assoc]
  · rw [mapEqb_iff_lookup (Policy.WF_bitor_files (Policy.WF_bitor_files ha.1))
      (Policy.WF_bitor_files ha.1)]
    intro k
    simp only [Policy.lookupA_bitor_files hc.1, Policy.lookupA_bitor_files hb.1,
      Policy.lookupA_bitor_files (Policy.WF_bitor_files hb.1)]
    cases lookupA k c.files <;> cases lookupA k b.files <;>
      cases lookupA k a.files <;> rfl
  · rw [Policy.bitor_dbus, Policy.bitor_dbus, Policy.bitor_dbus,
      Policy.bitor_dbus, List.append_assoc]
  · rw [Policy.bitor_env_vars, Policy.bitor_env_vars, Policy.bitor_env_vars,
      Policy.bitor_env_vars]
    rw [mapEqb_iff_lookup (WF_extendA (WF_extendA ha.2)) (WF_extendA ha.2)]
    intro k
    simp only [lookupA_extendA hc.2, lookupA_extendA hb.2,
      lookupA_extendA (WF_extendA (m := b.env_vars) hb.2)]
    cases lookupA k c.env_vars <;> cases lookupA k b.env_vars <;>
      cases lookupA k a.env_vars <;> rfl
  · rw [Policy.bitor_password, Policy.bitor_password, Policy.bitor_password]

/-- Witness for `policy_merge_assoc` at three concrete policies. -/
theorem policy_merge_assoc_witness :
    Policy.req
      ((Policy.bitor
          (Policy.bitor { Policy.default with files := [("/a", Access.R)] }
            { Policy.default with files := [("/b", Access.W)] })
          { Policy.default with files := [("/a", Access.X)] }))
      (Policy.bitor { Policy.default with files := [("/a", Access.R)] }
        (Policy.bitor { Policy.default with files := [("/b", Access.W)] }
          { Policy.default with files := [("/a", Access.X)] })) = true :=
  policy_merge_assoc
    { Policy.default with files := [("/a", Access.R)] }
    { Policy.default with files := [("/b", Access.W)] }
    { Policy.default with files := [("/a", Access.X)] }
    (Policy.WFp_of_nodup (by decide) (by decide))
    (Policy.WFp_of_nodup (by decide) (by decide))
    (Policy.WFp_of_nodup (by decide) (by decide))

/-- C2 (code bug, evaluated at the failing input): merging a policy that
grants `R` on `/etc/app.conf` with one that grants `W` on the same path
yields `W` — the value of the right-hand input — not the bitwise or `RW` the
claim states: the `files.extend(rhs.files)` call of `impl BitOr for Policy`
overwrites the or that the intersection loop just inserted. -/
theorem policy_files_merge_overwrites_or :
    lookupA "/etc/app.conf"
        (Policy.bitor { Policy.default with files := [("/etc/app.conf", Access.R)] }
          { Policy.default with files := [("/etc/app.conf", Access.W)] }).files
      = some Access.W ∧
    lookupA "/etc/app.conf"
        (Policy.bitor { Policy.default with files := [("/etc/app.conf", Access.R)] }
          { Policy.default with files := [("/etc/app.conf", Access.W)] }).files
      ≠ some (Access.or Access.R Access.W) := by
  constructor
  · decide
  · decide

/-- C5 (code bug, evaluated at the failing input): granting an action to an
identity absent from the polkit document (here: no document yet) returns
`Ok` but writes a document that still lacks the identity — `get_or_insert`
extends a dropped temporary `HashSet`, not the map — so the subsequent query
returns `Ok(false)` instead of the `true` the claim requires.  The last two
conjuncts show the same grant does reach the document when the identity is
already present, isolating the slip to the absent-identity path. -/
theorem polkit_grant_lost_for_absent_identity :
    PolkitPolicyWorker.add_policy none "rar_u" ["org.freedesktop.login1"]
      = .ok (some []) ∧
    PolkitPolicyWorker.check_policy (some []) "rar_u" "org.freedesktop.login1"
      = .ok false ∧
    PolkitPolicyWorker.add_policy (some [("rar_u", [])]) "rar_u"
        ["org.freedesktop.login1"]
      = .ok (some [("rar_u", ["org.freedesktop.login1"])]) ∧
    PolkitPolicyWorker.check_policy (some [("rar_u", ["org.freedesktop.login1"])])
        "rar_u" "org.freedesktop.login1"
      = .ok true := by
  refine ⟨rfl, rfl, rfl, rfl⟩

/-- C6 (counterexample): querying the polkit manager when the document file
does not exist yields the propagated `File::open` error, not the
`Ok(false)` the claim states for that case. -/
theorem polkit_check_missing_doc_errors_cex :
    PolkitPolicyWorker.check_policy none "rar_u" "org.freedesktop.login1"
      = .error .ioError := rfl

/-- C6 (amended): querying an identity that is absent from an existing
polkit document returns `Ok(false)` without error; querying when the
document file itself does not exist fails with the propagated I/O error. -/
theorem polkit_check_absent_identity (m : PolkitPolicy) (user action : String)
    (h : containsKeyA user m = false) :
    PolkitPolicyWorker.check_policy (some m) user action = .ok false ∧
    PolkitPolicyWorker.check_policy none user action = .error .ioError := by
  constructor
  · have hl : lookupA user m = none :=
      lookupA_eq_none_iff.mpr
        (fun hm => by rw [containsKeyA_iff.mpr hm] at h; cases h)
    simp [PolkitPolicyWorker.check_policy, PolkitPolicyWorker.polkit_policy,
      hl, bind, Except.bind, pure, Except.pure]
  · rfl

/-- Witness for `polkit_check_absent_identity` at a concrete document that
holds a different identity. -/
theorem polkit_check_absent_identity_witness :
    PolkitPolicyWorker.check_policy (some [("rar_other", ["a.b.c"])]) "rar_u"
        "a.b.c" = .ok false ∧
    PolkitPolicyWorker.check_policy none "rar_u" "a.b.c" = .error .ioError :=
  polkit_check_absent_identity [("rar_other", ["a.b.c"])] "rar_u" "a.b.c"
    (by decide)

/-- C7 (counterexample): with an empty bounding set (mask 0), requesting
capability number 0 (mask 1) makes `add_caps` return normally with the
unioned set — the Rust body performs no bounding-set check — whereas the
behaviour the claim describes (modelled from the spec by `add_caps_spec`)
signals the fatal misuse error at this input. -/
theorem add_caps_no_bounding_check_cex :
    Capable.add_caps { previous_caps := 0, caps := 0 } 1
      = { previous_caps := 0, caps := 1 } ∧
    add_caps_spec 0 { previous_caps := 0, caps := 0 } 1
      = .error .capabilityBoundingViolation := by
  constructor
  · rfl
  · rfl

/-- C7 (amended): `add_caps(delta)` unconditionally unions `delta` into the
attempted capability set — bit `i` of the result is set exactly when it is
set in the old set or in `delta` — and records the old set in
`previous_caps`; it never checks the bounding set and cannot fail. -/
theorem add_caps_unions_unconditionally (s : CapableCaps) (delta i : Nat) :
    ((Capable.add_caps s delta).caps.testBit i
      = (s.caps.testBit i || delta.testBit i)) ∧
    (Capable.add_caps s delta).previous_caps = s.caps := by
  constructor
  · exact Nat.testBit_lor s.caps delta i
  · rfl

theorem fromChars_error {l : List Char} {c : Char} (hc : c ∈ l)
    (hR : c ≠ 'R') (hW : c ≠ 'W') (hX : c ≠ 'X') (acc : Access) :
    Access.fromChars l acc = .error .invalidAccessString := by
  induction l generalizing acc with
  | nil => cases hc
  | cons d rest ih =>
    rcases List.mem_cons.mp hc with h | h
    · subst h
      rw [Access.fromChars, if_neg hR, if_neg hW, if_neg hX]
    · by_cases hdR : d = 'R'
      · rw [Access.fromChars, if_pos hdR]
        exact ih h _
      · by_cases hdW : d = 'W'
        · rw [Access.fromChars, if_neg hdR, if_pos hdW]
          exact ih h _
        · by_cases hdX : d = 'X'
          · rw [Access.fromChars, if_neg hdR, if_neg hdW, if_pos hdX]
            exact ih h _
          · rw [Access.fromChars, if_neg hdR, if_neg hdW, if_neg hdX]

/-- C9: the textual form of an `Access` value parses back to the same value
(round-trip); the displayed letters form a sublist of `R`, `W`, `X` in that
fixed order; and parsing any string that contains a character other than
`R`, `W`, `X` fails with the parse error. -/
theorem access_display_roundtrip_and_reject :
    (∀ a : Access, Access.fromStr (Access.display a) = .ok a) ∧
    (∀ a : Access, (Access.display a).data.Sublist ['R', 'W', 'X']) ∧
    (∀ (s : String) (c : Char), c ∈ s.data → c ≠ 'R' → c ≠ 'W' → c ≠ 'X' →
      Access.fromStr s = .error .invalidAccessString) := by
  refine ⟨?_, ?_, ?_⟩
  · rintro ⟨r, w, x⟩
    cases r <;> cases w <;> cases x <;> rfl
  · rintro ⟨r, w, x⟩
    cases r <;> cases w <;> cases x <;> decide
  · intro s c hc hR hW hX
    exact fromChars_error hc hR hW hX Access.empty

/-- Witness for `access_display_roundtrip_and_reject`: round-trip at `R` and
rejection of the string `"Q"`. -/
theorem access_display_roundtrip_and_reject_witness :
    Access.fromStr (Access.display Access.R) = .ok Access.R ∧
    Access.fromStr "Q" = .error .invalidAccessString :=
  ⟨access_display_roundtrip_and_reject.1 Access.R,
    access_display_roundtrip_and_reject.2.2 "Q" 'Q' (by decide) (by decide)
      (by decide) (by decide)⟩

/-- C8: identity derivation is deterministic — each scheme is a pure function
of its input — and the two schemes are disjoint: a playbook-scoped identity
(prefix `rar_`) never equals a raw-command-scoped identity (prefix
`gsr_`). -/
theorem username_derivation_deterministic_disjoint :
    (∀ p₁ t₁ p₂ t₂ : String, p₁ = p₂ → t₁ = t₂ →
      get_username_ansible p₁ t₁ = get_username_ansible p₂ t₂) ∧
    (∀ c₁ c₂ : List String, c₁ = c₂ →
      get_username_gensr c₁ = get_username_gensr c₂) ∧
    (∀ (p t : String) (cmd : List String),
      get_username_ansible p t ≠ get_username_gensr cmd) := by
  refine ⟨?_, ?_, ?_⟩
  · intro p₁ t₁ p₂ t₂ hp ht
    rw [hp, ht]
  · intro c₁ c₂ h
    rw [h]
  · intro p t cmd he
    have hd : ('r' :: 'a' :: 'r' :: '_' ::
          (hexEncode (sha224 (utf8Bytes p ++ utf8Bytes t))).data)
        = ('g' :: 's' :: 'r' :: '_' ::
          (hexEncode (sha224 (cmd.flatMap utf8Bytes))).data) :=
      congrArg String.data he
    injection hd with h1 _
    exact absurd h1 (by decide)

/-- Witness for `username_derivation_deterministic_disjoint` at a concrete
playbook/task pair and a concrete command. -/
theorem username_derivation_witness :
    get_username_ansible "site.yml" "install nginx"
      = get_username_ansible "site.yml" "install nginx" ∧
    get_username_gensr ["systemctl", "restart", "nginx"]
      = get_username_gensr ["systemctl", "restart", "nginx"] ∧
    get_username_ansible "site.yml" "install nginx"
      ≠ get_username_gensr ["systemctl", "restart", "nginx"] :=
  ⟨username_derivation_deterministic_disjoint.1 _ _ _ _ rfl rfl,
    username_derivation_deterministic_disjoint.2.1 _ _ rfl,
    username_derivation_deterministic_disjoint.2.2 "site.yml" "install nginx"
      ["systemctl", "restart", "nginx"]⟩

theorem loopGo_converged_exits_after_success (trace : ProbeTrace) :
    ∀ (fuel : Nat) (s : LoopState), s.ran = false ∨ s.failed = true →
      ∀ q evs, loopGo trace fuel s = .converged q evs →
      ∃ j, s.idx ≤ j ∧ j < s.idx + fuel ∧ (trace j).2 = false ∧
        (∀ m, s.idx ≤ m → m < j → (trace m).2 = true) ∧ q = (trace j).1 := by
  intro fuel
  induction fuel with
  | zero =>
    intro s hs q evs h
    simp [loopGo] at h
  | succ fuel ih =>
    intro s hs q evs h
    rw [loopGo] at h
    have hcond : (!s.ran || s.failed) = true := by
      rcases hs with h1 | h1 <;> simp [h1]
    rw [if_pos hcond] at h
    by_cases herr : (decide (s.looping > 0) && (trace s.idx).2) = true
    · rw [if_pos herr] at h
      simp at h
    · rw [if_neg herr] at h
      cases hfail : (trace s.idx).2 with
      | true =>
        rw [hfail] at h
        rcases ih _ (Or.inr rfl) q evs h with ⟨j, hj1, hj2, hj3, hj4, hj5⟩
        simp only at hj1 hj2 hj4
        refine ⟨j, by omega, by omega, hj3, ?_, hj5⟩
        intro m hm1 hm2
        by_cases hm : m = s.idx
        · rw [hm]
          exact hfail
        · exact hj4 m (by omega) hm2
      | false =>
        rw [hfail] at h
        cases fuel with
        | zero => simp [loopGo] at h
        | succ fuel' =>
          rw [loopGo, if_neg (by simp)] at h
          simp only [LoopResult.converged.injEq] at h
          refine ⟨s.idx, Nat.le_refl _, by omega, hfail, ?_, h.1.symm⟩
          intro m hm1 hm2
          omega

/-- C3 (counterexample): started from the default policy, a trace whose very
first probe succeeds with a different policy (one requiring `cap_net_raw`)
makes the loop exit normally after that single probe — the loop exits on the
first success even though the discovered policy changed from the previous
iteration (`req` is `false`). -/
theorem loop_exits_despite_policy_change_cex :
    loopGo (fun _ => ({ Policy.default with capabilities := ["cap_net_raw"] }, false)) 2
        (initLoopState Policy.default)
      = .converged { Policy.default with capabilities := ["cap_net_raw"] } [] ∧
    Policy.req { Policy.default with capabilities := ["cap_net_raw"] } Policy.default
      = false := by
  constructor
  · rfl
  · decide

/-- C3 (amended): the fail-then-add loop exits normally only in a state where
the most recent probe reported success: a `converged` result identifies a
probe index `j` whose probe succeeded, all earlier probes having failed, and
the policy returned is the one probe `j` discovered.  The loop exits at the
first success — it does not additionally require the discovered policy to be
unchanged from the previous iteration (see the counterexample). -/
theorem fail_then_add_loop_exit_requires_success (trace : ProbeTrace)
    (fuel : Nat) (p₀ q : Policy) (evs : List LoopEvent)
    (h : loopGo trace fuel (initLoopState p₀) = .converged q evs) :
    ∃ j, j < fuel ∧ (trace j).2 = false ∧
      (∀ m, m < j → (trace m).2 = true) ∧ q = (trace j).1 := by
  rcases loopGo_converged_exits_after_success trace fuel (initLoopState p₀)
    (Or.inl rfl) q evs h with ⟨j, h1, h2, h3, h4, h5⟩
  simp only [initLoopState] at h1 h2 h4
  exact ⟨j, by omega, h3, fun m hm => h4 m (Nat.zero_le _) hm, h5⟩

/-- Witness for `fail_then_add_loop_exit_requires_success` on a trace whose
probes always succeed with the default policy. -/
theorem fail_then_add_loop_exit_requires_success_witness :
    ∃ j, j < 2 ∧ ((fun _ : Nat => (Policy.default, false)) j).2 = false ∧
      (∀ m, m < j → ((fun _ : Nat => (Policy.default, false)) m).2 = true) ∧
      Policy.default = ((fun _ : Nat => (Policy.default, false)) j).1 :=
  fail_then_add_loop_exit_requires_success (fun _ => (Policy.default, false)) 2
    Policy.default Policy.default [] rfl

theorem loopGo_error_of_looping_pos (trace : ProbeTrace) (fuel : Nat)
    (s : LoopState) (hfailed : s.failed = true) (hpos : 0 < s.looping)
    (hfail : (trace s.idx).2 = true) :
    loopGo trace (fuel + 1) s
      = .didNotConverge (escalateEvents s ++ [.revoke s.policy, .printOutput]) := by
  rw [loopGo, if_pos (by simp [hfailed]), if_pos (by simp [hpos, hfail])]

theorem loopGo_error_after_stable (trace : ProbeTrace) (fuel : Nat)
    (s : LoopState) (hran : s.ran = true) (hfailed : s.failed = true)
    (hl : s.looping = 0)
    (hreq : Policy.req (trace s.idx).1 s.policy = true)
    (hf1 : (trace s.idx).2 = true) (hf2 : (trace (s.idx + 1)).2 = true)
    (hfuel : 2 ≤ fuel) :
    ∃ evs p, loopGo trace fuel s
      = .didNotConverge (evs ++ [.revoke p, .printOutput]) := by
  obtain ⟨f, rfl⟩ : ∃ f, fuel = f + 2 := ⟨fuel - 2, by omega⟩
  rw [loopGo, if_pos (by simp [hran, hfailed]), if_neg (by simp [hl])]
  refine ⟨_, _, loopGo_error_of_looping_pos trace f _ hf1 ?_ ?_⟩
  · show 0 < (if Policy.req (trace s.idx).1 s.policy then s.looping + 1 else 0)
    rw [if_pos hreq]
    omega
  · show (trace (s.idx + 1)).2 = true
    exact hf2

theorem loopGo_allfail_error_aux (trace : ProbeTrace) (N : Nat)
    (hfail : ∀ n, (trace n).2 = true)
    (hstab : ∀ n, N ≤ n → Policy.req (trace n).1 (trace N).1 = true) :
    ∀ (k fuel : Nat) (s : LoopState), s.ran = true → s.failed = true →
      s.looping = 0 → 1 ≤ s.idx → s.policy = (trace (s.idx - 1)).1 →
      N + 2 ≤ s.idx + k → k + 2 ≤ fuel →
      ∃ evs p, loopGo trace fuel s
        = .didNotConverge (evs ++ [.revoke p, .printOutput]) := by
  intro k
  induction k with
  | zero =>
    intro fuel s hran hfailed hl hidx hpol hNk hfuel
    have hreq : Policy.req (trace s.idx).1 s.policy = true := by
      rw [hpol]
      exact Policy.req_trans_right (hstab s.idx (by omega))
        (hstab (s.idx - 1) (by omega))
    exact loopGo_error_after_stable trace fuel s hran hfailed hl hreq
      (hfail s.idx) (hfail (s.idx + 1)) hfuel
  | succ k ih =>
    intro fuel s hran hfailed hl hidx hpol hNk hfuel
    by_cases hreq : Policy.req (trace s.idx).1 s.policy = true
    · exact loopGo_error_after_stable trace fuel s hran hfailed hl hreq
        (hfail s.idx) (hfail (s.idx + 1)) (by omega)
    · obtain ⟨f, rfl⟩ : ∃ f, fuel = f + 1 := ⟨fuel - 1, by omega⟩
      rw [loopGo, if_pos (by simp [hran, hfailed]), if_neg (by simp [hl])]
      refine ih f _ rfl (hfail s.idx) ?_ ?_ ?_ ?_ (by omega)
      · show (if Policy.req (trace s.idx).1 s.policy then s.looping + 1 else 0) = 0
        rw [if_neg hreq]
      · show 1 ≤ s.idx + 1
        omega
      · show (trace s.idx).1 = (trace (s.idx + 1 - 1)).1
        simp
      · show N + 2 ≤ s.idx + 1 + k
        omega

/-- C4: for every trace whose probes always fail and whose discovered policy
is eventually unchanged (structurally equal to the one at index `N` from
index `N` on), the fail-then-add loop does not hang: for every fuel of at
least `N + 4` iterations it returns the `Failed to get policy` error
(`DiscoveryDidNotConverge`), its event log ending with the revocation of the
last enforced partial policy followed by the surfacing of the captured
stdout/stderr.  In particular two consecutive failing probes with an
unchanged policy — which drive `looping` past zero — trigger the error exit
of the escalated retry, not another iteration. -/
theorem fail_then_add_loop_nonconvergence_terminates (trace : ProbeTrace)
    (p₀ : Policy) (N : Nat)
    (hfail : ∀ n, (trace n).2 = true)
    (hstab : ∀ n, N ≤ n → Policy.req (trace n).1 (trace N).1 = true)
    (fuel : Nat) (hfuel : N + 4 ≤ fuel) :
    ∃ evs p, loopGo trace fuel (initLoopState p₀)
      = .didNotConverge (evs ++ [LoopEvent.revoke p, LoopEvent.printOutput]) := by
  obtain ⟨f, rfl⟩ : ∃ f, fuel = f + 1 := ⟨fuel - 1, by omega⟩
  rw [loopGo, if_pos (by simp [initLoopState]), if_neg (by simp [initLoopState])]
  by_cases hreq : Policy.req (trace (initLoopState p₀).idx).1 (initLoopState p₀).policy = true
  · obtain ⟨f', rfl⟩ : ∃ f', f = f' + 1 := ⟨f - 1, by omega⟩
    refine ⟨_, _, loopGo_error_of_looping_pos trace f' _ ?_ ?_ ?_⟩
    · show (trace ((initLoopState p₀).idx)).2 = true
      exact hfail _
    · show 0 < (if Policy.req (trace (initLoopState p₀).idx).1 (initLoopState p₀).policy
          then (initLoopState p₀).looping + 1 else 0)
      rw [if_pos hreq]
      omega
    · show (trace ((initLoopState p₀).idx + 1)).2 = true
      exact hfail _
  · refine loopGo_allfail_error_aux trace N hfail hstab (N + 1) f _ rfl
      (hfail _) ?_ ?_ ?_ ?_ (by omega)
    · show (if Policy.req (trace (initLoopState p₀).idx).1 (initLoopState p₀).policy
          then (initLoopState p₀).looping + 1 else 0) = 0
      rw [if_neg hreq]
    · show 1 ≤ (initLoopState p₀).idx + 1
      omega
    · show (trace (initLoopState p₀).idx).1 = (trace ((initLoopState p₀).idx + 1 - 1)).1
      simp
    · show N + 2 ≤ (initLoopState p₀).idx + 1 + (N + 1)
      show N + 2 ≤ 0 + 1 + (N + 1)
      omega

/-- Witness for `fail_then_add_loop_nonconvergence_terminates` on the
constant trace whose probes always fail with the default policy. -/
theorem fail_then_add_loop_nonconvergence_terminates_witness :
    ∃ evs p, loopGo (fun _ => (Policy.default, true)) 4 (initLoopState Policy.default)
      = .didNotConverge (evs ++ [LoopEvent.revoke p, LoopEvent.printOutput]) :=
  fail_then_add_loop_nonconvergence_terminates (fun _ => (Policy.default, true))
    Policy.default 0 (fun _ => rfl)
    (fun _ _ => (by decide : Policy.req Policy.default Policy.default = true))
    4 (by decide)

theorem del_acl_ok {st st' : SysState} {user path : String}
    (h : del_acl st user path = .ok st') :
    st'.accounts = st.accounts ∧ st'.dbusFiles = st.dbusFiles ∧
    st'.polkit = st.polkit ∧ st'.pathsOnDisk = st.pathsOnDisk ∧
    st'.aclEntries = removeA (path, user) st.aclEntries := by
  unfold del_acl at h
  by_cases hp : path ∈ st.pathsOnDisk
  · rw [if_pos hp] at h
    injection h with h
    subst h
    exact ⟨rfl, rfl, rfl, rfl, rfl⟩
  · rw [if_neg hp] at h
    exact Except.noConfusion h

theorem foldlM_del_acl_ok {user : String} :
    ∀ {files : List (String × Access)} {st st' : SysState},
      files.foldlM (fun st pr => del_acl st user pr.1) st = .ok st' →
      st'.accounts = st.accounts ∧ st'.dbusFiles = st.dbusFiles ∧
      st'.polkit = st.polkit ∧ st'.pathsOnDisk = st.pathsOnDisk ∧
      ∀ key : String × String,
        lookupA key st'.aclEntries
          = if key.2 = user ∧ key.1 ∈ files.map Prod.fst then none
            else lookupA key st.aclEntries := by
  intro files
  induction files with
  | nil =>
    intro st st' h
    simp only [List.foldlM_nil, pure, Except.pure, Except.ok.injEq] at h
    subst h
    refine ⟨rfl, rfl, rfl, rfl, fun key => ?_⟩
    simp
  | cons pr rest ih =>
    intro st st' h
    rw [List.foldlM_cons] at h
    cases hd : del_acl st user pr.1 with
    | error e =>
      rw [hd] at h
      exact Except.noConfusion h
    | ok st₁ =>
      rw [hd] at h
      simp only [bind, Except.bind] at h
      rcases ih h with ⟨h1, h2, h3, h4, h5⟩
      rcases del_acl_ok hd with ⟨g1, g2, g3, g4, g5⟩
      refine ⟨h1.trans g1, h2.trans g2, h3.trans g3, h4.trans g4, fun key => ?_⟩
      rw [h5 key]
      by_cases hr : key.2 = user ∧ key.1 ∈ rest.map Prod.fst
      · rw [if_pos hr, if_pos ⟨hr.1, by simp [hr.2]⟩]
      · rw [if_neg hr, g5]
        by_cases hk : key = (pr.1, user)
        · rw [hk, lookupA_removeA_self,
            if_pos ⟨rfl, List.mem_cons_self _ _⟩]
        · rw [lookupA_removeA_ne hk]
          by_cases hc : key.2 = user ∧ key.1 ∈ pr.1 :: rest.map Prod.fst
          · exfalso
            rcases hc with ⟨hc1, hc2⟩
            rcases List.mem_cons.mp hc2 with hc3 | hc3
            · exact hk (Prod.ext hc3 hc1)
            · exact hr ⟨hc1, hc3⟩
          · rw [if_neg (by simpa using hc)]

theorem set_acl_ok_accounts {st st' : SysState} {user path perms : String}
    (h : set_acl st user path perms = .ok st') :
    st'.accounts = st.accounts := by
  unfold set_acl at h
  by_cases hp : path ∈ st.pathsOnDisk
  · rw [if_pos hp] at h
    cases hsp : str_to_permission perms with
    | error e =>
      rw [hsp] at h
      simp only [bind, Except.bind] at h
      exact Except.noConfusion h
    | ok p =>
      rw [hsp] at h
      simp only [bind, Except.bind, Except.ok.injEq] at h
      subst h
      rfl
  · rw [if_neg hp] at h
    exact Except.noConfusion h

theorem foldlM_set_acl_accounts {user : String} :
    ∀ {files : List (String × Access)} {st st' : SysState},
      files.foldlM (fun st pr => set_acl st user pr.1 pr.2.display) st = .ok st' →
      st'.accounts = st.accounts := by
  intro files
  induction files with
  | nil =>
    intro st st' h
    simp only [List.foldlM_nil, pure, Except.pure, Except.ok.injEq] at h
    subst h
    rfl
  | cons pr rest ih =>
    intro st st' h
    rw [List.foldlM_cons] at h
    cases hd : set_acl st user pr.1 pr.2.display with
    | error e =>
      rw [hd] at h
      exact Except.noConfusion h
    | ok st₁ =>
      rw [hd] at h
      simp only [bind, Except.bind] at h
      exact (ih h).trans (set_acl_ok_accounts hd)

/-- C10: a successful `remove_policy` deletes the backing system account
itself (via `userdel`), in addition to removing the identity's ACL entries
for every path of the policy, the identity's D-Bus policy file, and the
identity's polkit document entry; consequently a successful `enforce_policy`
always ends with the account present — it begins with an account creation
that is idempotent: `useradd` returns the state unchanged when the account
already exists. -/
theorem remove_policy_deletes_account_enforce_recreates :
    (∀ (st st' : SysState) (username : String) (policy : Policy),
      remove_policy username policy st = .ok st' →
      username ∉ st'.accounts ∧
      username ∉ st'.dbusFiles ∧
      (∃ m, st'.polkit = some m ∧ containsKeyA username m = false) ∧
      (∀ path ∈ policy.files.map Prod.fst,
        lookupA (path, username) st'.aclEntries = none)) ∧
    (∀ (st st' : SysState) (username : String) (policy : Policy),
      enforce_policy username policy st = .ok st' → username ∈ st'.accounts) ∧
    (∀ (st : SysState) (username : String), username ∈ st.accounts →
      useradd st username = .ok st) := by
  refine ⟨?_, ?_, ?_⟩
  · intro st st' username policy h
    unfold remove_policy at h
    by_cases hm : username ∈ st.accounts
    · rw [if_pos hm] at h
      cases hf : policy.files.foldlM (fun st pr => del_acl st username pr.1) st with
      | error e =>
        rw [hf] at h
        simp only [bind, Except.bind] at h
        exact Except.noConfusion h
      | ok st₁ =>
        rw [hf] at h
        simp only [bind, Except.bind, PolkitPolicyWorker.del_policy,
          PolkitPolicyWorker.polkit_policy] at h
        rcases foldlM_del_acl_ok hf with ⟨_, _, _, _, hacl⟩
        cases hpk : (userdel st₁ username).polkit with
        | none =>
          rw [hpk] at h
          exact Except.noConfusion h
        | some m =>
          rw [hpk] at h
          simp only [Except.ok.injEq] at h
          subst h
          refine ⟨?_, ?_, ⟨removeA username m, rfl, containsKeyA_removeA_self⟩, ?_⟩
          · show username ∉ (userdel st₁ username).accounts
            simp [userdel]
          · show username ∉ (userdel st₁ username).dbusFiles.filter
              (fun f => decide (f ≠ username))
            simp
          · intro path hpath
            show lookupA (path, username) st₁.aclEntries = none
            rw [hacl (path, username), if_pos ⟨rfl, hpath⟩]
    · rw [if_neg hm] at h
      exact Except.noConfusion h
  · intro st st' username policy h
    unfold enforce_policy at h
    cases hu : useradd st username with
    | error e =>
      rw [hu] at h
      simp only [bind, Except.bind] at h
      exact Except.noConfusion h
    | ok st₁ =>
      rw [hu] at h
      simp only [bind, Except.bind] at h
      have hmem : username ∈ st₁.accounts := by
        unfold useradd at hu
        by_cases hm : username ∈ st.accounts
        · rw [if_pos hm] at hu
          injection hu with hu
          subst hu
          exact hm
        · rw [if_neg hm] at hu
          injection hu with hu
          subst hu
          simp
      cases hf : policy.files.foldlM
          (fun st pr => set_acl st username pr.1 pr.2.display) st₁ with
      | error e =>
        rw [hf] at h
        exact Except.noConfusion h
      | ok st₂ =>
        rw [hf] at h
        have hmem₂ : username ∈ st₂.accounts := by
          rw [foldlM_set_acl_accounts hf]
          exact hmem
        simp only [PolkitPolicyWorker.add_policy, Except.ok.injEq] at h
        subst h
        exact hmem₂
  · intro st username h
    unfold useradd
    rw [if_pos h]

/-- Witness for `remove_policy_deletes_account_enforce_recreates` on a
one-account, one-file, one-bus-name system state: revoking removes the
account and every grant; enforcing from the bare state recreates the
account; `useradd` on an existing account is the identity. -/
theorem remove_policy_deletes_account_enforce_recreates_witness :
    ("rar_u" ∉ ([] : List String) ∧
      "rar_u" ∉ ([] : List String) ∧
      (∃ m, (some ([] : PolkitPolicy)) = some m ∧ containsKeyA "rar_u" m = false) ∧
      (∀ path ∈ (["/f"] : List String),
        lookupA (path, "rar_u") ([] : AssocMap (String × String) Access) = none)) ∧
    "rar_u" ∈ (["rar_u"] : List String) ∧
    useradd
        { accounts := ["rar_u"], pathsOnDisk := ["/f"]
          aclEntries := [(("/f", "rar_u"), Access.R)]
          dbusFiles := ["rar_u"], polkit := some [("rar_u", ["a"])] } "rar_u"
      = .ok
        { accounts := ["rar_u"], pathsOnDisk := ["/f"]
          aclEntries := [(("/f", "rar_u"), Access.R)]
          dbusFiles := ["rar_u"], polkit := some [("rar_u", ["a"])] } :=
  ⟨remove_policy_deletes_account_enforce_recreates.1
      { accounts := ["rar_u"], pathsOnDisk := ["/f"]
        aclEntries := [(("/f", "rar_u"), Access.R)]
        dbusFiles := ["rar_u"], polkit := some [("rar_u", ["a"])] }
      { accounts := [], pathsOnDisk := ["/f"], aclEntries := []
        dbusFiles := [], polkit := some [] }
      "rar_u" { Policy.default with files := [("/f", Access.R)], dbus := ["a"] }
      rfl,
    remove_policy_deletes_account_enforce_recreates.2.1
      { accounts := [], pathsOnDisk := ["/f"], aclEntries := []
        dbusFiles := [], polkit := some [] }
      { accounts := ["rar_u"], pathsOnDisk := ["/f"]
        aclEntries := [(("/f", "rar_u"), Access.mk true false false)]
        dbusFiles := ["rar_u"], polkit := some [] }
      "rar_u" { Policy.default with files := [("/f", Access.R)], dbus := ["a"] }
      rfl,
    remove_policy_deletes_account_enforce_recreates.2.2
      { accounts := ["rar_u"], pathsOnDisk := ["/f"]
        aclEntries := [(("/f", "rar_u"), Access.R)]
        dbusFiles := ["rar_u"], polkit := some [("rar_u", ["a"])] }
      "rar_u" (by decide)⟩

end Spec2Proof
